/-
Verification of the aimcp content-sync core: a shallow embedding of the
cache-key codec, resource-URI codec, GitLab client retry loop, glob file
discovery, tool manager, and cache manager, with theorems settling the
specification's claims about them.

Strings are modelled as `List Char`; Python `str` methods that the code
uses (`split` with a maxsplit, `strip`, `lstrip`, `startswith`) are
embedded as explicit functions below.
-/
import Mathlib

namespace Aimcp

/-- The character list of a string literal (our model of Python `str`). -/
def str (s : String) : List Char := s.data

abbrev Str := List Char

/-- Split at the first occurrence of `sep`: returns the part before and the
part after, or `none` when `sep` does not occur.  This is the building
block for Python `s.split(sep, maxsplit)`. -/
def splitFirst (sep : Char) : Str → Option (Str × Str)
  | [] => none
  | c :: rest =>
    if c = sep then some ([], rest)
    else (splitFirst sep rest).map (fun p => (c :: p.1, p.2))

/-- Python `s.split(sep, 1)`: at most one split. -/
def splitMax1 (sep : Char) (s : Str) : List Str :=
  match splitFirst sep s with
  | none => [s]
  | some (a, b) => [a, b]

/-- Python `s.split(sep, 2)`: at most two splits; the remainder (including
further separators) stays in the last segment. -/
def splitMax2 (sep : Char) (s : Str) : List Str :=
  match splitFirst sep s with
  | none => [s]
  | some (a, rest) =>
    match splitFirst sep rest with
    | none => [a, rest]
    | some (b, c) => [a, b, c]

/-- Python `s.startswith(p)`. -/
def startsWith : Str → Str → Bool
  | [], _ => true
  | _ :: _, [] => false
  | c :: cs, d :: ds => c = d && startsWith cs ds

/-- Python `s.lstrip(c)` for a single strip character. -/
def lstripChar (c : Char) (s : Str) : Str := s.dropWhile (· = c)

/-- Python `s.strip(c)` for a single strip character: removes leading and
trailing occurrences of `c`. -/
def stripChar (c : Char) (s : Str) : Str :=
  ((s.dropWhile (· = c)).reverse.dropWhile (· = c)).reverse

/-! ## Cache models (`src/aimcp/cache/models.py`) -/

/-- Model of `RepositoryCacheKey`: repository URL, branch, file path. -/
structure RepositoryCacheKey where
  repository_url : Str
  branch : Str
  file_path : Str
  deriving Repr, DecidableEq

namespace RepositoryCacheKey

/-- Method `to_key`: format as `f"{repository_url}:{branch}:{file_path}"`. -/
def to_key (k : RepositoryCacheKey) : Str :=
  k.repository_url ++ ':' :: k.branch ++ ':' :: k.file_path

/-- Method `from_key`: `key.split(":", 2)`; a `ValueError` (fewer than three
segments) is modelled as `none`. -/
def from_key (key : Str) : Option RepositoryCacheKey :=
  match splitMax2 ':' key with
  | [a, b, c] => some ⟨a, b, c⟩
  | _ => none

end RepositoryCacheKey

/-- Model of `CacheEntry`; `datetime` instants and second counts are modelled as
integers on one time axis, so `created_at + timedelta(seconds=ttl)` is
integer addition. -/
structure CacheEntry where
  value : Str
  created_at : Int
  ttl_seconds : Option Int := none
  access_count : Nat := 0
  last_accessed : Option Int := none
  size_bytes : Option Nat := none
  deriving Repr, DecidableEq

namespace CacheEntry

/-- Property `is_expired`, with `datetime.now()` passed in as `now`:
`False` without a TTL, else `now > created_at + ttl_seconds`. -/
def is_expired (e : CacheEntry) (now : Int) : Bool :=
  match e.ttl_seconds with
  | none => false
  | some t => decide (e.created_at + t < now)

end CacheEntry

/-! ## Lemmas about `splitFirst` and the key codec -/

theorem splitFirst_eq_none_iff (sep : Char) (s : Str) :
    splitFirst sep s = none ↔ sep ∉ s := by
  induction s with
  | nil => simp [splitFirst]
  | cons c rest ih =>
    by_cases hc : c = sep
    · subst hc
      simp [splitFirst]
    · constructor
      · intro h hmem
        rcases List.mem_cons.mp hmem with h1 | h2
        · exact hc h1.symm
        · have hnone : splitFirst sep rest = none := by
            simp only [splitFirst, if_neg hc] at h
            cases hsp : splitFirst sep rest with
            | none => rfl
            | some p => rw [hsp] at h; simp at h
          exact (ih.mp hnone) h2
      · intro hmem
        have h2 : sep ∉ rest := fun hm => hmem (List.mem_cons_of_mem _ hm)
        simp [splitFirst, if_neg hc, ih.mpr h2]

/-- Splitting a string of the form `a ++ sep :: b` where `a` is free of
`sep` recovers `(a, b)`. -/
theorem splitFirst_append (sep : Char) (a b : Str) (ha : sep ∉ a) :
    splitFirst sep (a ++ sep :: b) = some (a, b) := by
  induction a with
  | nil => simp [splitFirst]
  | cons c rest ih =>
    have hc : c ≠ sep := fun h => ha (h ▸ List.mem_cons_self c rest)
    have hrest : sep ∉ rest := fun h => ha (List.mem_cons_of_mem _ h)
    simp [splitFirst, if_neg hc, ih hrest]

theorem splitFirst_eq_some (sep : Char) (s a b : Str)
    (h : splitFirst sep s = some (a, b)) : s = a ++ sep :: b ∧ sep ∉ a := by
  induction s generalizing a b with
  | nil => simp [splitFirst] at h
  | cons c rest ih =>
    simp only [splitFirst] at h
    by_cases hc : c = sep
    · rw [if_pos hc] at h
      simp only [Option.some.injEq, Prod.mk.injEq] at h
      obtain ⟨ha, hb⟩ := h
      subst hc
      rw [← ha, ← hb]
      simp
    · rw [if_neg hc] at h
      cases hsp : splitFirst sep rest with
      | none => rw [hsp] at h; simp at h
      | some p =>
        obtain ⟨a', b'⟩ := p
        rw [hsp] at h
        simp at h
        obtain ⟨ha, hb⟩ := h
        obtain ⟨ih1, ih2⟩ := ih a' b' hsp
        subst hb
        rw [← ha]
        refine ⟨by simp [ih1], ?_⟩
        intro hmem
        rcases List.mem_cons.mp hmem with h1 | h2
        · exact hc h1.symm
        · exact ih2 h2

/-- Splitting twice across a string assembled from three segments whose
first two are separator-free recovers the segments. -/
theorem splitMax2_append (sep : Char) (a b c : Str) (ha : sep ∉ a) (hb : sep ∉ b) :
    splitMax2 sep (a ++ sep :: (b ++ sep :: c)) = [a, b, c] := by
  simp [splitMax2, splitFirst_append sep a _ ha, splitFirst_append sep b c hb]

/-- Claim C1 (counterexample): with a URL-valued `repository_url` the colon of
`https://` is taken as the first key separator, so `from_key ∘ to_key` does
not return the original components. -/
theorem from_key_to_key_url_counterexample :
    RepositoryCacheKey.from_key
        (RepositoryCacheKey.to_key
          ⟨str "https://gitlab.com/group/project", str "main", str "docs/guide.md"⟩) ≠
      some ⟨str "https://gitlab.com/group/project", str "main", str "docs/guide.md"⟩ := by
  decide

/-- Claim C1 (amended): `from_key (to_key k) = k` for every key whose
`repository_url` and `branch` are free of `':'`; the file path may contain
colons, which stay in the third segment because `split(":", 2)` performs at
most two splits. -/
theorem from_key_to_key_roundtrip (k : RepositoryCacheKey)
    (h1 : ':' ∉ k.repository_url) (h2 : ':' ∉ k.branch) :
    RepositoryCacheKey.from_key (RepositoryCacheKey.to_key k) = some k := by
  obtain ⟨r, b, p⟩ := k
  have hk : RepositoryCacheKey.to_key ⟨r, b, p⟩ = r ++ ':' :: (b ++ ':' :: p) := by
    simp [RepositoryCacheKey.to_key]
  rw [hk]
  unfold RepositoryCacheKey.from_key
  rw [splitMax2_append ':' r b p h1 h2]

/-- Claim C1 witness: the amended round trip evaluated on a concrete key with a
colon-containing file path. -/
theorem from_key_to_key_roundtrip_witness :
    ':' ∉ str "gitlab.example.com/group/project" ∧ ':' ∉ str "main" ∧
      RepositoryCacheKey.from_key
          (RepositoryCacheKey.to_key
            ⟨str "gitlab.example.com/group/project", str "main", str "a:b.md"⟩) =
        some ⟨str "gitlab.example.com/group/project", str "main", str "a:b.md"⟩ :=
  ⟨by decide, by decide,
    from_key_to_key_roundtrip
      ⟨str "gitlab.example.com/group/project", str "main", str "a:b.md"⟩
      (by decide) (by decide)⟩

/-- Claim C7: `from_key` fails (raises `ValueError`, modelled as `none`) exactly
on keys with zero or one colon, and succeeds exactly when at most two
splits on `':'` produce three segments, i.e. when the key has at least two
colons. -/
theorem from_key_fails_iff_lt_two_colons (key : Str) :
    (RepositoryCacheKey.from_key key = none ↔ key.count ':' ≤ 1)
    ∧ ((RepositoryCacheKey.from_key key).isSome ↔ 2 ≤ key.count ':') := by
  cases h1 : splitFirst ':' key with
  | none =>
    have hmem : ':' ∉ key := (splitFirst_eq_none_iff ':' key).mp h1
    have hcount : key.count ':' = 0 := List.count_eq_zero.mpr hmem
    simp [RepositoryCacheKey.from_key, splitMax2, h1, hcount]
  | some p =>
    obtain ⟨a, rest⟩ := p
    obtain ⟨hkey, hna⟩ := splitFirst_eq_some ':' key a rest h1
    have hca : a.count ':' = 0 := List.count_eq_zero.mpr hna
    cases h2 : splitFirst ':' rest with
    | none =>
      have hmem : ':' ∉ rest := (splitFirst_eq_none_iff ':' rest).mp h2
      have hcr : rest.count ':' = 0 := List.count_eq_zero.mpr hmem
      have hcount : key.count ':' = 1 := by
        rw [hkey]
        simp [List.count_append, List.count_cons, hca, hcr]
      simp [RepositoryCacheKey.from_key, splitMax2, h1, h2, hcount]
    | some q =>
      obtain ⟨b, c⟩ := q
      obtain ⟨hrest, _⟩ := splitFirst_eq_some ':' rest b c h2
      have hcount : 2 ≤ key.count ':' := by
        rw [hkey, hrest]
        simp [List.count_append, List.count_cons]
        omega
      simp [RepositoryCacheKey.from_key, splitMax2, h1, h2]
      omega

/-- Claim C6: an entry with `ttl_seconds = t` is not expired at any instant up to
and including `created_at + t` and is expired at every instant strictly
after it; an entry without a TTL is never expired. -/
theorem is_expired_characterization (v : Str) (created t : Int) (ac : Nat)
    (la : Option Int) (sb : Option Nat) (now : Int) :
    (CacheEntry.is_expired ⟨v, created, some t, ac, la, sb⟩ now = true ↔
        created + t < now)
    ∧ (CacheEntry.is_expired ⟨v, created, some t, ac, la, sb⟩ now = false ↔
        now ≤ created + t)
    ∧ CacheEntry.is_expired ⟨v, created, none, ac, la, sb⟩ now = false := by
  refine ⟨?_, ?_, rfl⟩ <;> simp [CacheEntry.is_expired]

/-! ## Resource URI scheme (`src/aimcp/tools/resources.py`)

`parse_uri` delegates to `urllib.parse.urlparse` (CPython ≥ 3.11, which
this codebase requires via `StrEnum`).  `urlsplit` first removes every
`"\t"`, `"\r"`, `"\n"` from the URL; for an input that starts with
`"aimcp://"` (checked first, on the raw string) the sanitized URL yields
scheme `"aimcp"`, the netloc (the characters after `"//"` up to the first
`'/'`, `'?'` or `'#'`), and the path (the remainder up to the first `'#'`
or `'?'`).  The netloc is rejected with `ValueError` on an unbalanced
square bracket, on a bracketed host that is not a valid IPv6/IPvFuture
address (`_check_bracketed_host`), and on a non-ASCII netloc whose NFKC
normalization introduces one of `/?#@:` (`_checknetloc`).  The
scheme-mismatch branch of `parse_uri` is unreachable behind the
`startswith` guard, so it is not modelled separately. -/

/-- Errors raised as `ResourceURIError`, one constructor per raise site. -/
inductive URIError where
  | invalidScheme
  | missingRepository
  | missingBranchOrPath
  | missingBranch
  | missingFilePath
  | invalidFormat
  deriving Repr, DecidableEq

/-- A character ending the netloc in `urlparse`. -/
def isNetlocDelim (c : Char) : Bool := decide (c = '/' ∨ c = '?' ∨ c = '#')

/-- The removal of `"\t"`, `"\r"`, `"\n"` that `urlsplit` applies to the
whole URL before any parsing (`_UNSAFE_URL_BYTES_TO_REMOVE`). -/
def sanitizeURL (s : Str) : Str :=
  s.filter (fun c => decide (c ≠ '\t' ∧ c ≠ '\r' ∧ c ≠ '\n'))

/-- Python per-character `str.isascii`: code point below 128. -/
def isAsciiChar (c : Char) : Bool := decide (c.toNat < 128)

/-- The two pieces of `urlsplit`'s netloc validation that reach outside
this embedding: `unicodedata.normalize("NFKC", ...)` used by
`_checknetloc`, and the `ipaddress`-based bracketed-host validation of
`_check_bracketed_host`.  Theorems quantify over both; `urlsplit` consults
them only for netlocs containing non-ASCII characters or brackets. -/
structure URLParseOracles where
  nfkc : Str → Str
  validBracketedHost : Str → Bool

/-- Netloc part `netloc.partition("[")[2].partition("]")[0]`: the text
between the first `'['` and the following `']'`. -/
def bracketedHostOf (netloc : Str) : Str :=
  match splitFirst '[' netloc with
  | none => []
  | some (_, tail) => tail.takeWhile (fun c => decide (c ≠ ']'))

/-- Model of `_checknetloc`: no error for an empty or all-ASCII netloc;
otherwise strip `@:#?`, NFKC-normalize, and error exactly when the
normalization changed the string and introduced one of `/?#@:`. -/
def checknetloc (nfkc : Str → Str) (netloc : Str) : Bool :=
  if netloc = [] then false
  else if netloc.all isAsciiChar then false
  else
    let n := netloc.filter (fun c => decide (c ≠ '@' ∧ c ≠ ':' ∧ c ≠ '#' ∧ c ≠ '?'))
    let n2 := nfkc n
    if n = n2 then false
    else (str "/?#@:").any (fun c => decide (c ∈ n2))

namespace ResourceURIHandler

/-- Method `build_uri`: strips surrounding `'/'` from each component and formats
`f"aimcp://{repository}/{branch}/{file_path}"`. -/
def build_uri (repository branch file_path : Str) : Str :=
  str "aimcp://" ++ stripChar '/' repository ++
    '/' :: stripChar '/' branch ++ '/' :: stripChar '/' file_path

/-- Method `parse_uri`: scheme check on the raw URI, `urlparse` of the
sanitized URI (netloc extraction and validation, then the path as
described above), then `path.lstrip("/").split("/", 1)` into branch and
file path.  `url.drop 8` is the post-`"//"` remainder of the sanitized
URL: the guard pins the first eight characters to `"aimcp://"`, none of
which sanitization removes. -/
def parse_uri (oracles : URLParseOracles) (uri : Str) :
    Except URIError (Str × Str × Str) :=
  if startsWith (str "aimcp://") uri then
    let url := sanitizeURL uri
    let rest := url.drop 8
    let netloc := rest.takeWhile (fun c => !isNetlocDelim c)
    let rest2 := rest.drop netloc.length
    if ('[' ∈ netloc ∧ ']' ∉ netloc) ∨ (']' ∈ netloc ∧ '[' ∉ netloc) then
      .error .invalidFormat
    else if '[' ∈ netloc ∧ ']' ∈ netloc ∧
        ¬ oracles.validBracketedHost (bracketedHostOf netloc) then
      .error .invalidFormat
    else if checknetloc oracles.nfkc netloc then
      .error .invalidFormat
    else
      let path := rest2.takeWhile (fun c => decide (c ≠ '#' ∧ c ≠ '?'))
      if netloc = [] then .error .missingRepository
      else
        match splitMax1 '/' (lstripChar '/' path) with
        | [branch, file_path] =>
          if branch = [] then .error .missingBranch
          else if file_path = [] then .error .missingFilePath
          else .ok (netloc, branch, file_path)
        | _ => .error .missingBranchOrPath
  else .error .invalidScheme

end ResourceURIHandler

/-- Oracle instance for evaluating concrete URIs.  `parse_uri` consults
the oracles only for netlocs containing brackets or non-ASCII characters;
every concrete input below is bracket-free ASCII, so any instance gives
the program's behaviour there. -/
def trivialOracles : URLParseOracles := ⟨fun s => s, fun _ => true⟩

theorem checknetloc_ascii (nfkc : Str → Str) (netloc : Str)
    (h : netloc.all isAsciiChar = true) : checknetloc nfkc netloc = false := by
  unfold checknetloc
  by_cases h0 : netloc = []
  · simp [h0]
  · rw [if_neg h0, if_pos h]

/-! ### Helper lemmas for the URI round trip -/

theorem takeWhile_append_cons (pr : Char → Bool) (a : Str) (d : Char) (t : Str)
    (ha : ∀ c ∈ a, pr c = true) (hd : pr d = false) :
    (a ++ d :: t).takeWhile pr = a := by
  induction a with
  | nil => simp [List.takeWhile_cons, hd]
  | cons x xs ih =>
    have hx : pr x = true := ha x (List.mem_cons_self _ _)
    simp [List.takeWhile_cons, hx, ih (fun c hc => ha c (List.mem_cons_of_mem _ hc))]

theorem startsWith_append (p x : Str) : startsWith p (p ++ x) = true := by
  induction p with
  | nil => rfl
  | cons c cs ih => simp [startsWith, ih]

theorem dropWhile_eq_self_of_head (pr : Char → Bool) (l : Str)
    (h : ∀ hd, l.head? = some hd → pr hd = false) : l.dropWhile pr = l := by
  cases l with
  | nil => rfl
  | cons x xs => simp [List.dropWhile_cons, h x rfl]

theorem stripChar_eq_self (c : Char) (s : Str)
    (h1 : s.head? ≠ some c) (h2 : s.getLast? ≠ some c) : stripChar c s = s := by
  unfold stripChar
  have e1 : s.dropWhile (· = c) = s := by
    refine dropWhile_eq_self_of_head _ s (fun hd hhd => ?_)
    simp only [decide_eq_false_iff_not]
    intro he
    exact h1 (he ▸ hhd)
  rw [e1]
  have e2 : s.reverse.dropWhile (· = c) = s.reverse := by
    refine dropWhile_eq_self_of_head _ s.reverse (fun hd hhd => ?_)
    rw [List.head?_reverse] at hhd
    simp only [decide_eq_false_iff_not]
    intro he
    exact h2 (he ▸ hhd)
  rw [e2, List.reverse_reverse]

/-- Parsing a canonical `aimcp://r/b/p` URI whose repository is ASCII and
holds no delimiter, bracket or sanitized characters, whose branch holds no
`'/'`, `'?'`, `'#'` or sanitized characters, and whose path holds no
`'?'`, `'#'` or sanitized characters, recovers the three components under
any oracle instance. -/
theorem parse_uri_canonical (oracles : URLParseOracles) (r b p : Str)
    (hr : r ≠ []) (hb : b ≠ []) (hp : p ≠ [])
    (hrc : ∀ c ∈ r, c ≠ '/' ∧ c ≠ '?' ∧ c ≠ '#' ∧ c ≠ '[' ∧ c ≠ ']')
    (hbc : ∀ c ∈ b, c ≠ '/' ∧ c ≠ '?' ∧ c ≠ '#')
    (hpc : ∀ c ∈ p, c ≠ '?' ∧ c ≠ '#')
    (hrA : ∀ c ∈ r, c.toNat < 128)
    (hrS : ∀ c ∈ r, c ≠ '\t' ∧ c ≠ '\r' ∧ c ≠ '\n')
    (hbS : ∀ c ∈ b, c ≠ '\t' ∧ c ≠ '\r' ∧ c ≠ '\n')
    (hpS : ∀ c ∈ p, c ≠ '\t' ∧ c ≠ '\r' ∧ c ≠ '\n') :
    ResourceURIHandler.parse_uri oracles (str "aimcp://" ++ (r ++ '/' :: (b ++ '/' :: p))) =
      .ok (r, b, p) := by
  have hsan : sanitizeURL (str "aimcp://" ++ (r ++ '/' :: (b ++ '/' :: p))) =
      str "aimcp://" ++ (r ++ '/' :: (b ++ '/' :: p)) := by
    refine List.filter_eq_self.mpr (fun c hc => ?_)
    have hlit : ∀ x ∈ str "aimcp://",
        (decide (x ≠ '\t' ∧ x ≠ '\r' ∧ x ≠ '\n')) = true := by decide
    rcases List.mem_append.mp hc with h0 | h1
    · exact hlit c h0
    · rcases List.mem_append.mp h1 with h2 | h3
      · obtain ⟨e1, e2, e3⟩ := hrS c h2
        simp [e1, e2, e3]
      · rcases List.mem_cons.mp h3 with h4 | h5
        · subst h4; decide
        · rcases List.mem_append.mp h5 with h6 | h7
          · obtain ⟨e1, e2, e3⟩ := hbS c h6
            simp [e1, e2, e3]
          · rcases List.mem_cons.mp h7 with h8 | h9
            · subst h8; decide
            · obtain ⟨e1, e2, e3⟩ := hpS c h9
              simp [e1, e2, e3]
  have hbrack2 : ¬ ('[' ∈ r ∧ ']' ∈ r ∧
      ¬ oracles.validBracketedHost (bracketedHostOf r)) := by
    rintro ⟨hmem, -, -⟩
    exact (hrc '[' hmem).2.2.2.1 rfl
  have hchk : checknetloc oracles.nfkc r = false :=
    checknetloc_ascii oracles.nfkc r
      (List.all_eq_true.mpr (fun c hc => decide_eq_true (hrA c hc)))
  have hdrop : (str "aimcp://" ++ (r ++ '/' :: (b ++ '/' :: p))).drop 8 =
      r ++ '/' :: (b ++ '/' :: p) := by
    have h8 : (8 : Nat) = (str "aimcp://").length := rfl
    rw [h8, List.drop_left]
  have hnetloc : (r ++ '/' :: (b ++ '/' :: p)).takeWhile (fun c => !isNetlocDelim c) = r := by
    refine takeWhile_append_cons _ r '/' _ (fun c hc => ?_) (by simp [isNetlocDelim])
    obtain ⟨h1, h2, h3, -, -⟩ := hrc c hc
    simp [isNetlocDelim, h1, h2, h3]
  have hrest2 : (r ++ '/' :: (b ++ '/' :: p)).drop r.length = '/' :: (b ++ '/' :: p) :=
    List.drop_left r _
  have hnb : ¬ (('[' ∈ r ∧ ']' ∉ r) ∨ (']' ∈ r ∧ '[' ∉ r)) := by
    rintro (⟨hmem, -⟩ | ⟨hmem, -⟩)
    · exact (hrc '[' hmem).2.2.2.1 rfl
    · exact (hrc ']' hmem).2.2.2.2 rfl
  have hpath : ('/' :: (b ++ '/' :: p)).takeWhile (fun c => decide (c ≠ '#' ∧ c ≠ '?')) =
      '/' :: (b ++ '/' :: p) := by
    refine List.takeWhile_eq_self_iff.mpr (fun c hc => ?_)
    rcases List.mem_cons.mp hc with h1 | h2
    · subst h1; decide
    · rcases List.mem_append.mp h2 with h3 | h4
      · obtain ⟨-, hq, hh⟩ := hbc c h3
        simp [hq, hh]
      · rcases List.mem_cons.mp h4 with h5 | h6
        · subst h5; decide
        · obtain ⟨hq, hh⟩ := hpc c h6
          simp [hq, hh]
  have hlstrip : lstripChar '/' ('/' :: (b ++ '/' :: p)) = b ++ '/' :: p := by
    unfold lstripChar
    rw [List.dropWhile_cons]
    simp only [decide_True, if_true]
    refine dropWhile_eq_self_of_head _ _ (fun hd hhd => ?_)
    cases b with
    | nil => exact absurd rfl hb
    | cons x xs =>
      simp only [List.cons_append, List.head?_cons, Option.some.injEq] at hhd
      subst hhd
      have hx := (hbc _ (List.mem_cons_self _ _)).1
      simp [hx]
  have hsplit : splitMax1 '/' (b ++ '/' :: p) = [b, p] := by
    unfold splitMax1
    rw [splitFirst_append '/' b p (fun hm => (hbc '/' hm).1 rfl)]
  unfold ResourceURIHandler.parse_uri
  rw [if_pos (startsWith_append (str "aimcp://") _)]
  simp only [hsan, hdrop, hnetloc, hrest2, hpath, hlstrip, hsplit]
  rw [if_neg hnb, if_neg hbrack2, if_neg (by simp [hchk]), if_neg hr, if_neg hb, if_neg hp]

/-- Claim C2 (counterexample): a repository path containing `'/'` (the usual
GitLab `group/project` form) does not round-trip: `urlparse` ends the
netloc at the first `'/'`, shifting every component.  The netloc here is
bracket-free ASCII, so the oracle instance is never consulted and the
evaluation is the program's behaviour. -/
theorem parse_build_uri_counterexample :
    ResourceURIHandler.parse_uri trivialOracles
        (ResourceURIHandler.build_uri (str "group/project") (str "main") (str "tools.json")) =
      .ok (str "group", str "project", str "main/tools.json")
    ∧ (str "group", str "project", str "main/tools.json") ≠
        (str "group/project", str "main", str "tools.json") :=
  ⟨rfl, by decide⟩

/-- Claim C2 (amended): `parse_uri (build_uri r b p) = (r, b, p)` for non-empty
components without leading or trailing `'/'`, provided additionally that
no component contains a tab, CR or LF (which `urlsplit` strips from the
URL), the repository is ASCII and contains no `'/'`, `'?'`, `'#'`, `'['`,
`']'`, the branch contains no `'/'`, `'?'`, `'#'`, and the file path
contains no `'?'`, `'#'` (the file path may contain interior `'/'`);
under any NFKC / bracketed-host oracle. -/
theorem parse_build_uri_roundtrip (oracles : URLParseOracles) (r b p : Str)
    (hr : r ≠ []) (hb : b ≠ []) (hp : p ≠ [])
    (hrc : ∀ c ∈ r, c ≠ '/' ∧ c ≠ '?' ∧ c ≠ '#' ∧ c ≠ '[' ∧ c ≠ ']')
    (hbc : ∀ c ∈ b, c ≠ '/' ∧ c ≠ '?' ∧ c ≠ '#')
    (hpc : ∀ c ∈ p, c ≠ '?' ∧ c ≠ '#')
    (hrA : ∀ c ∈ r, c.toNat < 128)
    (hrS : ∀ c ∈ r, c ≠ '\t' ∧ c ≠ '\r' ∧ c ≠ '\n')
    (hbS : ∀ c ∈ b, c ≠ '\t' ∧ c ≠ '\r' ∧ c ≠ '\n')
    (hpS : ∀ c ∈ p, c ≠ '\t' ∧ c ≠ '\r' ∧ c ≠ '\n')
    (hph : p.head? ≠ some '/') (hpl : p.getLast? ≠ some '/') :
    ResourceURIHandler.parse_uri oracles (ResourceURIHandler.build_uri r b p) =
      .ok (r, b, p) := by
  have hsr : stripChar '/' r = r := by
    refine stripChar_eq_self '/' r ?_ ?_
    · intro h
      exact (hrc '/' (List.mem_of_mem_head? (h ▸ rfl))).1 rfl
    · intro h
      have : '/' ∈ r.getLast? := h ▸ rfl
      obtain ⟨hne, heq⟩ := List.mem_getLast?_eq_getLast this
      exact (hrc '/' (heq ▸ List.getLast_mem hne)).1 rfl
  have hsb : stripChar '/' b = b := by
    refine stripChar_eq_self '/' b ?_ ?_
    · intro h
      exact (hbc '/' (List.mem_of_mem_head? (h ▸ rfl))).1 rfl
    · intro h
      have : '/' ∈ b.getLast? := h ▸ rfl
      obtain ⟨hne, heq⟩ := List.mem_getLast?_eq_getLast this
      exact (hbc '/' (heq ▸ List.getLast_mem hne)).1 rfl
  have hsp : stripChar '/' p = p := stripChar_eq_self '/' p hph hpl
  have hshape : ResourceURIHandler.build_uri r b p =
      str "aimcp://" ++ (r ++ '/' :: (b ++ '/' :: p)) := by
    unfold ResourceURIHandler.build_uri
    rw [hsr, hsb, hsp]
    simp
  rw [hshape]
  exact parse_uri_canonical oracles r b p hr hb hp hrc hbc hpc hrA hrS hbS hpS

/-- Claim C2 witness: the amended round trip on a concrete triple whose file path
contains an interior `'/'`, under the concrete oracle instance. -/
theorem parse_build_uri_roundtrip_witness :
    str "gitlab.example.com" ≠ [] ∧ str "main" ≠ [] ∧ str "docs/a.md" ≠ [] ∧
      ResourceURIHandler.parse_uri trivialOracles
          (ResourceURIHandler.build_uri (str "gitlab.example.com") (str "main")
            (str "docs/a.md")) =
        .ok (str "gitlab.example.com", str "main", str "docs/a.md") :=
  ⟨by decide, by decide, by decide,
    parse_build_uri_roundtrip trivialOracles
      (str "gitlab.example.com") (str "main") (str "docs/a.md")
      (by decide) (by decide) (by decide) (by decide) (by decide) (by decide)
      (by decide) (by decide) (by decide) (by decide) (by decide) (by decide)⟩

/-! ## GitLab client (`src/aimcp/gitlab/client.py`) -/

/-- An HTTP response as `_make_request` observes it: the status code and
the error message the method would extract from the body on failure. -/
structure Response where
  status_code : Nat
  message : Str
  deriving Repr, DecidableEq

/-- What one attempt of the request loop produces: a response, or an
`httpx.RequestError` (transient network failure) with its message. -/
inductive AttemptOutcome where
  | response (r : Response)
  | requestError (msg : Str)
  deriving Repr, DecidableEq

/-- Model of `GitLabClientError(message, status_code)`. -/
structure GitLabClientError where
  message : Str
  status_code : Option Nat
  deriving Repr, DecidableEq

/-- The outcome of `_make_request`: a returned response or a raised
`GitLabClientError`. -/
inductive RequestResult where
  | ok (r : Response)
  | error (e : GitLabClientError)
  deriving Repr, DecidableEq

namespace RequestResult

def isOk : RequestResult → Bool
  | .ok _ => true
  | .error _ => false

end RequestResult

/-- The body of `for attempt in range(max_retries + 1)` in `_make_request`,
with the outcome of each attempt supplied by `attempts`.  `remaining`
counts loop iterations left; falling off the loop produces the final
`raise GitLabClientError("Max retries exceeded")`.  The accumulated
`asyncio.sleep` backoff waits are returned alongside the result. -/
def requestLoop (maxRetries : Nat) (attempts : Nat → AttemptOutcome) :
    Nat → Nat → List Nat → RequestResult × List Nat
  | 0, _, waits => (.error ⟨str "Max retries exceeded", none⟩, waits.reverse)
  | remaining + 1, attempt, waits =>
    match attempts attempt with
    | .response r =>
      if r.status_code = 429 ∧ attempt < maxRetries then
        requestLoop maxRetries attempts remaining (attempt + 1) (2 ^ attempt :: waits)
      else if 400 ≤ r.status_code then
        (.error ⟨r.message, some r.status_code⟩, waits.reverse)
      else (.ok r, waits.reverse)
    | .requestError msg =>
      if attempt < maxRetries then
        requestLoop maxRetries attempts remaining (attempt + 1) (2 ^ attempt :: waits)
      else (.error ⟨str "Request failed: " ++ msg, none⟩, waits.reverse)

/-- Method `_make_request` with `config.max_retries = maxRetries`: run the loop
from attempt 0 with `maxRetries + 1` iterations available. -/
def make_request (maxRetries : Nat) (attempts : Nat → AttemptOutcome) :
    RequestResult × List Nat :=
  requestLoop maxRetries attempts (maxRetries + 1) 0 []

/-- A run in which every attempt is rate-limited retries until
`attempt = maxRetries` and then raises the embedded-status HTTP error
carrying status 429 — not the dedicated max-retries error. -/
theorem requestLoop_const429 (maxRetries : Nat) (msg : Str) :
    ∀ (rem attempt : Nat) (waits : List Nat), attempt + rem = maxRetries →
      (requestLoop maxRetries (fun _ => .response ⟨429, msg⟩) (rem + 1) attempt waits).1 =
        .error ⟨msg, some 429⟩ := by
  intro rem
  induction rem with
  | zero =>
    intro attempt waits h
    have hstep : requestLoop maxRetries (fun _ => .response ⟨429, msg⟩) (0 + 1) attempt waits =
        if (429 : Nat) = 429 ∧ attempt < maxRetries then
          requestLoop maxRetries (fun _ => .response ⟨429, msg⟩) 0 (attempt + 1)
            (2 ^ attempt :: waits)
        else if 400 ≤ (429 : Nat) then (.error ⟨msg, some 429⟩, waits.reverse)
        else (.ok ⟨429, msg⟩, waits.reverse) := rfl
    have hnlt : ¬ ((429 : Nat) = 429 ∧ attempt < maxRetries) := by omega
    rw [hstep, if_neg hnlt, if_pos (by norm_num)]
  | succ rem ih =>
    intro attempt waits h
    have hstep : requestLoop maxRetries (fun _ => .response ⟨429, msg⟩) (rem + 1 + 1) attempt waits =
        if (429 : Nat) = 429 ∧ attempt < maxRetries then
          requestLoop maxRetries (fun _ => .response ⟨429, msg⟩) (rem + 1) (attempt + 1)
            (2 ^ attempt :: waits)
        else if 400 ≤ (429 : Nat) then (.error ⟨msg, some 429⟩, waits.reverse)
        else (.ok ⟨429, msg⟩, waits.reverse) := rfl
    rw [hstep, if_pos ⟨rfl, by omega⟩]
    exact ih (attempt + 1) _ (by omega)

/-- Claim C3 (counterexample): with `max_retries = 3` and every attempt returning
HTTP 429, the request raises `GitLabClientError` with the response's
message and embedded status 429 via the generic HTTP-error branch; the
dedicated `"Max retries exceeded"` error the claim describes is not
raised (that line is unreachable). -/
theorem make_request_exhausted_counterexample :
    make_request 3 (fun _ => .response ⟨429, str "rate limited"⟩) =
      (.error ⟨str "rate limited", some 429⟩, [1, 2, 4])
    ∧ (make_request 3 (fun _ => .response ⟨429, str "rate limited"⟩)).1 ≠
        .error ⟨str "Max retries exceeded", none⟩ := by
  constructor
  · rfl
  · decide

/-- Claim C3 (amended): with `max_retries = 3`, three 429 responses followed by a
success return the successful response after backoff waits `2^0, 2^1, 2^2`;
and for any `max_retries`, a run whose every attempt returns 429 raises
`GitLabClientError` carrying the response message and status code 429
(through the same HTTP-error raise as permanent errors, distinguishable
only by the embedded 429 status — the `"Max retries exceeded"` error is
unreachable). -/
theorem make_request_retry_behavior :
    make_request 3
        (fun n => if n < 3 then .response ⟨429, str "rate limited"⟩
          else .response ⟨200, str "ok"⟩) =
      (.ok ⟨200, str "ok"⟩, [1, 2, 4])
    ∧ ∀ (maxRetries : Nat) (msg : Str),
        (make_request maxRetries (fun _ => .response ⟨429, msg⟩)).1 =
          .error ⟨msg, some 429⟩ := by
  constructor
  · rfl
  · intro maxRetries msg
    exact requestLoop_const429 maxRetries msg maxRetries 0 [] (by omega)

/-! ### Glob matching and file discovery

`fnmatch.fnmatch` on POSIX normalises with the identity and matches the
translated pattern against the whole path; `'*'` matches any character
sequence (including `'/'`), `'?'` any single character, and every other
character itself.  Character classes (`[...]`) are not modelled; the
patterns in this development contain none. -/

/-- Glob matching in the `fnmatch.translate` semantics, for patterns
without character classes.  A `'*'` matches when the rest of the pattern
matches some suffix of the string. -/
def globMatch : Str → Str → Bool
  | [], s => s.isEmpty
  | '*' :: ps, s => s.tails.any (fun t => globMatch ps t)
  | _ :: _, [] => false
  | pc :: ps, c :: cs => (decide (pc = '?') || decide (pc = c)) && globMatch ps cs

/-- A tree entry as returned by the repository tree API (`GitLabTree`).
Modelled from the spec: `gitlab/models.py` is not under `src/`; the spec's
`TreeEntry` and the fields `client.py` reads (`id`, `name`, `type`,
`path`, `mode`) determine this record. -/
structure GitLabTree where
  id : Str
  name : Str
  type : Str
  path : Str
  mode : Str
  deriving Repr, DecidableEq

/-- A file record (`GitLabFile`).  Modelled from the spec:
`gitlab/models.py` is not under `src/`; the constructor-keyword usage in
`find_files_by_pattern` determines the fields. -/
structure GitLabFile where
  id : Str
  name : Str
  path : Str
  type : Str
  mode : Str
  deriving Repr, DecidableEq

/-- The `GitLabFile(...)` built from a matching tree entry. -/
def toGitLabFile (e : GitLabTree) : GitLabFile :=
  ⟨e.id, e.name, e.path, e.type, e.mode⟩

/-- The inner `for pattern in patterns: ... break` loop: true iff some
pattern matches (first match stops the scan). -/
def matchFirst (path : Str) : List Str → Bool
  | [] => false
  | pat :: rest => if globMatch pat path then true else matchFirst path rest

/-- Method `find_files_by_pattern` after the recursive tree listing: keep blob
entries whose path matches a pattern, in order. -/
def find_files_by_pattern (entries : List GitLabTree) (patterns : List Str) :
    List GitLabFile :=
  match entries with
  | [] => []
  | e :: rest =>
    if e.type ≠ str "blob" then find_files_by_pattern rest patterns
    else if matchFirst e.path patterns then
      toGitLabFile e :: find_files_by_pattern rest patterns
    else find_files_by_pattern rest patterns

theorem matchFirst_eq_any (path : Str) (pats : List Str) :
    matchFirst path pats = pats.any (fun pat => globMatch pat path) := by
  induction pats with
  | nil => rfl
  | cons pat rest ih =>
    by_cases h : globMatch pat path = true
    · simp [matchFirst, h]
    · simp only [Bool.not_eq_true] at h
      simp [matchFirst, h, ih]

/-- Claim C8: `find_files_by_pattern` returns exactly the blob entries whose path
matches some pattern, each once (the first matching pattern stops the inner
scan, so multiple matching patterns add no duplicate); on the spec's
example tree with pattern `**/*.rules` it returns exactly `a/x.rules`. -/
theorem find_files_blobs_once :
    (∀ (entries : List GitLabTree) (patterns : List Str),
        find_files_by_pattern entries patterns =
          (entries.filter (fun e =>
              decide (e.type = str "blob") &&
                patterns.any (fun pat => globMatch pat e.path))).map toGitLabFile)
    ∧ find_files_by_pattern
        [⟨str "1", str "x.rules", str "blob", str "a/x.rules", str "100644"⟩,
         ⟨str "2", str "x.txt", str "blob", str "a/x.txt", str "100644"⟩,
         ⟨str "3", str "b", str "tree", str "b", str "040000"⟩]
        [str "**/*.rules"] =
      [⟨str "1", str "x.rules", str "a/x.rules", str "blob", str "100644"⟩] := by
  constructor
  · intro entries patterns
    induction entries with
    | nil => rfl
    | cons e rest ih =>
      by_cases hb : e.type = str "blob"
      · by_cases hm : matchFirst e.path patterns = true
        · have hany := (matchFirst_eq_any e.path patterns) ▸ hm
          simp [find_files_by_pattern, hb, hm, List.filter_cons, hany, ih]
        · simp only [Bool.not_eq_true] at hm
          have hany := (matchFirst_eq_any e.path patterns) ▸ hm
          simp [find_files_by_pattern, hb, hm, List.filter_cons, hany, ih]
      · simp [find_files_by_pattern, hb, List.filter_cons, ih]
  · decide

/-! ## `fetch_rule_files` (`src/aimcp/gitlab/client.py`) -/

/-- The per-file loop of `fetch_rule_files`: fetch each discovered file,
record successes in order, skip files whose fetch raises. -/
def fetchFilesLoop (fetch : Str → Except GitLabClientError Str) :
    List GitLabFile → List (Str × Str)
  | [] => []
  | f :: rest =>
    match fetch f.path with
    | .ok content => (f.path, content) :: fetchFilesLoop fetch rest
    | .error _ => fetchFilesLoop fetch rest

/-- Method `fetch_rule_files`: pattern discovery (whose failure re-raises), then
the per-file loop. -/
def fetch_rule_files (discovery : Except GitLabClientError (List GitLabFile))
    (fetch : Str → Except GitLabClientError Str) :
    Except GitLabClientError (List (Str × Str)) :=
  match discovery with
  | .error e => .error e
  | .ok files => .ok (fetchFilesLoop fetch files)

theorem fetchFilesLoop_eq_filterMap
    (fetch : Str → Except GitLabClientError Str) (files : List GitLabFile) :
    fetchFilesLoop fetch files =
      files.filterMap (fun f => (fetch f.path).toOption.map (fun c => (f.path, c))) := by
  induction files with
  | nil => rfl
  | cons f rest ih =>
    cases hf : fetch f.path with
    | ok content => simp [fetchFilesLoop, hf, Except.toOption, ih]
    | error e => simp [fetchFilesLoop, hf, Except.toOption, ih]

/-- Claim C9: when discovery succeeds, `fetch_rule_files` returns (never raises)
the mapping containing exactly the files whose individual fetch succeeded,
each bound to its fetched content; a failing per-file fetch only omits
that file. -/
theorem fetch_rule_files_partial_success
    (files : List GitLabFile) (fetch : Str → Except GitLabClientError Str) :
    fetch_rule_files (.ok files) fetch =
      .ok (files.filterMap (fun f => (fetch f.path).toOption.map (fun c => (f.path, c)))) :=
  congrArg Except.ok (fetchFilesLoop_eq_filterMap fetch files)

/-! ## Tool manager (`src/aimcp/tools/manager.py`)

The manager's awaited collaborators (cache lookup, GitLab fetch, JSON
parse) enter the embedding as oracle arguments: `cached` is the cache
lookup collapsed to an `Option` (an exception, a falsy value, or a failed
`ToolsSpecification(**...)` validation all act as a miss), `fetched` the
outcome of `get_file_content_decoded`, and the parse function the result
of `json.loads` plus model validation (`none` for a
`JSONDecodeError`/`ValueError`). -/

/-- Model of `MCPToolInput` (tools/models.py). -/
structure MCPToolInput where
  type : Str
  description : Option Str := none
  required : Bool := false
  deriving Repr, DecidableEq

/-- Model of `MCPTool` (tools/models.py). -/
structure MCPTool where
  name : Str
  description : Str
  inputSchema : Option (List (Str × MCPToolInput)) := none
  resources : List Str := []
  deriving Repr, DecidableEq

/-- Model of `ToolsSpecification` (tools/models.py). -/
structure ToolsSpecification where
  tools : List MCPTool
  version : Str := str "1.0"
  deriving Repr, DecidableEq

/-- Model of `GitLabRepository` (config/models.py): url and branch. -/
structure GitLabRepository where
  url : Str
  branch : Str
  deriving Repr, DecidableEq

/-- Model of `ToolSpecificationError` (and the manager's wrapped errors), one
constructor per raise site, carrying what the message interpolates. -/
inductive ToolSpecError where
  | invalidToolsJson (repoUrl : Str)
  | fetchFailed (repoUrl : Str) (e : GitLabClientError)
  | invalidURIScheme (uri : Str)
  | invalidURIFormat (uri : Str)
  | repoNotConfigured (repository branch : Str)
  | noSpecification (repoUrl : Str)
  | notAccessible (file_path : Str)
  | resourceFetchFailed (uri : Str) (e : GitLabClientError)
  deriving Repr, DecidableEq

/-- Method `_load_repository_tools`: cached specification if truthy, else fetch
`tools.json`; a 404 is the expected no-manifest outcome (`None`), any
other `GitLabClientError` becomes a `ToolSpecificationError`, and
unparseable content becomes a `ToolSpecificationError` as well. -/
def load_repository_tools (repo : GitLabRepository)
    (cached : Option ToolsSpecification)
    (fetched : Except GitLabClientError Str)
    (parse : Str → Option ToolsSpecification) :
    Except ToolSpecError (Option ToolsSpecification) :=
  match cached with
  | some spec => .ok (some spec)
  | none =>
    match fetched with
    | .ok content =>
      match parse content with
      | some spec => .ok (some spec)
      | none => .error (.invalidToolsJson repo.url)
    | .error e =>
      if e.status_code = some 404 then .ok none
      else .error (.fetchFailed repo.url e)

/-- Claim C4: on a cache miss, a 404 fetching `tools.json` makes
`_load_repository_tools` return `None` without raising — and it is the
only client-error status that does; every other `GitLabClientError`
(including one with no status) raises a `ToolSpecificationError`. -/
theorem load_repository_tools_404_is_absent (repo : GitLabRepository)
    (e : GitLabClientError) (parse : Str → Option ToolsSpecification) :
    (load_repository_tools repo none (.error e) parse = .ok none ↔
        e.status_code = some 404)
    ∧ (e.status_code ≠ some 404 →
        load_repository_tools repo none (.error e) parse =
          .error (.fetchFailed repo.url e)) := by
  constructor
  · by_cases h : e.status_code = some 404
    · simp [load_repository_tools, h]
    · simp [load_repository_tools, h]
  · intro h
    simp [load_repository_tools, h]

/-- Claim C4 witness: a 500 on `tools.json` raises; evaluated via the theorem at
a concrete error. -/
theorem load_repository_tools_404_is_absent_witness :
    (⟨str "err", some 500⟩ : GitLabClientError).status_code ≠ some 404 ∧
      load_repository_tools ⟨str "repo", str "main"⟩ none
          (.error ⟨str "err", some 500⟩) (fun _ => none) =
        .error (.fetchFailed (str "repo") ⟨str "err", some 500⟩) :=
  ⟨by decide,
    (load_repository_tools_404_is_absent ⟨str "repo", str "main"⟩
      ⟨str "err", some 500⟩ (fun _ => none)).2 (by decide)⟩

/-- Method `_validate_resource_access`: load the specification (propagating its
errors), fail when there is none, succeed exactly when some tool lists the
file path in its `resources`. -/
def validate_resource_access
    (loadResult : Except ToolSpecError (Option ToolsSpecification))
    (repoUrl file_path : Str) : Except ToolSpecError Unit :=
  match loadResult with
  | .error e => .error e
  | .ok none => .error (.noSpecification repoUrl)
  | .ok (some spec) =>
    if spec.tools.any (fun t => decide (file_path ∈ t.resources)) then .ok ()
    else .error (.notAccessible file_path)

/-- The fetch-and-cache tail of `get_resource_content`; the `Bool` records
that the GitLab fetch was performed. -/
def fetchResource (fetched : Except GitLabClientError Str) (uri : Str) :
    Except ToolSpecError Str × Bool :=
  match fetched with
  | .ok content => (.ok content, true)
  | .error e => (.error (.resourceFetchFailed uri e), true)

/-- Method `get_resource_content`: scheme check, `uri[8:].split("/", 2)`, lookup
of the configured repository, resource-access validation, then cache read
(a falsy cached value falls through) and GitLab fetch.  The second
component records whether the GitLab fetch was performed. -/
def get_resource_content (repos : List GitLabRepository)
    (loadSpec : GitLabRepository → Except ToolSpecError (Option ToolsSpecification))
    (cached : Option Str) (fetched : Except GitLabClientError Str) (uri : Str) :
    Except ToolSpecError Str × Bool :=
  if startsWith (str "aimcp://") uri then
    match splitMax2 '/' (uri.drop 8) with
    | [repository, branch, file_path] =>
      match repos.find? (fun rc =>
          decide (rc.url = repository) && decide (rc.branch = branch)) with
      | none => (.error (.repoNotConfigured repository branch), false)
      | some rc =>
        match validate_resource_access (loadSpec rc) rc.url file_path with
        | .error e => (.error e, false)
        | .ok _ =>
          match cached with
          | some c => if c ≠ [] then (.ok c, false) else fetchResource fetched uri
          | none => fetchResource fetched uri
    | _ => (.error (.invalidURIFormat uri), false)
  else (.error (.invalidURIScheme uri), false)

/-- Claim C5: for a configured repository whose specification loads, a file path
listed in no tool's `resources` is rejected with the resource-access error
and no GitLab fetch happens; conversely content is only ever served for a
path some tool lists. -/
theorem get_resource_content_least_privilege
    (repos : List GitLabRepository)
    (loadSpec : GitLabRepository → Except ToolSpecError (Option ToolsSpecification))
    (cached : Option Str) (fetched : Except GitLabClientError Str)
    (uri repository branch file_path : Str) (rc : GitLabRepository)
    (spec : ToolsSpecification)
    (hscheme : startsWith (str "aimcp://") uri = true)
    (hparts : splitMax2 '/' (uri.drop 8) = [repository, branch, file_path])
    (hfind : repos.find? (fun r0 =>
        decide (r0.url = repository) && decide (r0.branch = branch)) = some rc)
    (hload : loadSpec rc = .ok (some spec)) :
    ((∀ t ∈ spec.tools, file_path ∉ t.resources) →
        get_resource_content repos loadSpec cached fetched uri =
          (.error (.notAccessible file_path), false))
    ∧ (∀ c, (get_resource_content repos loadSpec cached fetched uri).1 = .ok c →
        ∃ t ∈ spec.tools, file_path ∈ t.resources) := by
  have hres : get_resource_content repos loadSpec cached fetched uri =
      (match validate_resource_access (loadSpec rc) rc.url file_path with
       | .error e => (.error e, false)
       | .ok _ =>
         match cached with
         | some c => if c ≠ [] then (.ok c, false) else fetchResource fetched uri
         | none => fetchResource fetched uri) := by
    unfold get_resource_content
    rw [if_pos hscheme]
    simp only [hparts, hfind]
  by_cases hany : spec.tools.any (fun t => decide (file_path ∈ t.resources)) = true
  · have hval : validate_resource_access (loadSpec rc) rc.url file_path = .ok () := by
      simp [validate_resource_access, hload, hany]
    obtain ⟨t, ht, hmem⟩ := List.any_eq_true.mp hany
    constructor
    · intro hnone
      exact absurd (of_decide_eq_true hmem) (hnone t ht)
    · intro c _
      exact ⟨t, ht, of_decide_eq_true hmem⟩
  · have hanyf : spec.tools.any (fun t => decide (file_path ∈ t.resources)) = false :=
      Bool.not_eq_true _ ▸ (by simpa using hany)
    have hval : validate_resource_access (loadSpec rc) rc.url file_path =
        .error (.notAccessible file_path) := by
      simp [validate_resource_access, hload, hanyf]
    rw [hval] at hres
    constructor
    · intro _
      exact hres
    · intro c hc
      rw [hres] at hc
      simp at hc

/-- Claim C5 witness: a request for a path listed in no tool's resources, with a
single configured repository, is rejected without any fetch. -/
theorem get_resource_content_least_privilege_witness :
    (∀ t ∈ (⟨[⟨str "tool", str "d", none, [str "allowed.md"]⟩], str "1.0"⟩ :
        ToolsSpecification).tools, str "secret.md" ∉ t.resources)
    ∧ get_resource_content [⟨str "repo", str "main"⟩]
        (fun _ => .ok (some ⟨[⟨str "tool", str "d", none, [str "allowed.md"]⟩], str "1.0"⟩))
        none (.ok (str "content")) (str "aimcp://repo/main/secret.md") =
      (.error (.notAccessible (str "secret.md")), false) :=
  ⟨by decide,
    (get_resource_content_least_privilege [⟨str "repo", str "main"⟩]
      (fun _ => .ok (some ⟨[⟨str "tool", str "d", none, [str "allowed.md"]⟩], str "1.0"⟩))
      none (.ok (str "content")) (str "aimcp://repo/main/secret.md")
      (str "repo") (str "main") (str "secret.md") ⟨str "repo", str "main"⟩
      ⟨[⟨str "tool", str "d", none, [str "allowed.md"]⟩], str "1.0"⟩
      (by decide) (by decide) (by decide) rfl).1 (by decide)⟩

/-! ## Cache manager (`src/aimcp/cache/manager.py`)

The store behind `CacheProtocol` is modelled from the spec (the protocol
and backend modules are not under `src/`): a finite association list of
key/value pairs where `get` returns the first binding, `set` replaces or
appends, and `keys(pattern)` lazily enumerates the stored keys matching
the glob pattern. -/

/-- A cache store: keys bound to string contents, in insertion order. -/
abbrev Store := List (Str × Str)

/-- Modelled from the spec: backend `get` — first binding for the key. -/
def storeGet (store : Store) (key : Str) : Option Str :=
  match store with
  | [] => none
  | (k, v) :: rest => if k = key then some v else storeGet rest key

/-- Modelled from the spec: backend `set` — replace or append. -/
def storeSet (store : Store) (key value : Str) : Store :=
  match store with
  | [] => [(key, value)]
  | (k, v) :: rest =>
    if k = key then (k, value) :: rest else (k, v) :: storeSet rest key value

/-- Modelled from the spec: backend `keys(pattern)` — stored keys matching
the glob pattern, in order. -/
def storeKeys (store : Store) (pattern : Str) : List Str :=
  (store.map Prod.fst).filter (fun k => globMatch pattern k)

/-- The enumeration pattern `f"{repository.url}:{repository.branch}:*"`. -/
def repoPattern (repo : GitLabRepository) : Str :=
  repo.url ++ ':' :: repo.branch ++ ':' :: ['*']

/-- Method `get_repository_rules`: enumerate the repository's keys, parse each
back (parse failures are logged and skipped), read its content, and keep
it only when the content is truthy (non-empty). -/
def get_repository_rules (store : Store) (repo : GitLabRepository) :
    List (Str × Str) :=
  (storeKeys store (repoPattern repo)).filterMap (fun key =>
    match RepositoryCacheKey.from_key key with
    | none => none
    | some rk =>
      match storeGet store key with
      | none => none
      | some content =>
        if content ≠ [] then some (rk.file_path, content) else none)

/-- Method `cache_repository_rules`: `set_rule_file` for each fetched file, under
the three-segment repository key. -/
def cache_repository_rules (store : Store) (repo : GitLabRepository)
    (rule_files : List (Str × Str)) : Store :=
  rule_files.foldl
    (fun st pc =>
      storeSet st (RepositoryCacheKey.to_key ⟨repo.url, repo.branch, pc.1⟩) pc.2)
    store

/-- One iteration of `warm_cache` for one repository, with the
`fetch_function` outcome supplied as an oracle: skip when cached rules
exist, otherwise invoke the fetch (an exception is logged and the loop
continues).  The `Bool` records whether `fetch_function` was invoked. -/
def warm_cache_step (store : Store) (repo : GitLabRepository)
    (fetched : Except GitLabClientError (List (Str × Str))) : Store × Bool :=
  if get_repository_rules store repo ≠ [] then (store, false)
  else
    match fetched with
    | .ok rule_files => (cache_repository_rules store repo rule_files, true)
    | .error _ => (store, true)

theorem storeGet_mem (store : Store) (key v : Str)
    (h : storeGet store key = some v) : (key, v) ∈ store := by
  induction store with
  | nil => simp [storeGet] at h
  | cons kv rest ih =>
    obtain ⟨k, w⟩ := kv
    by_cases hk : k = key
    · simp only [storeGet, if_pos hk, Option.some.injEq] at h
      subst hk
      subst h
      exact List.mem_cons_self _ _
    · simp only [storeGet, if_neg hk] at h
      exact List.mem_cons_of_mem _ (ih h)

/-- Claim C10: `get_repository_rules` never returns an empty content (falsy
cached values are treated as absent), and `warm_cache` invokes the fetch
function for a repository all of whose own cached files (the store entries
under its `url:branch:*` keys) have empty content — regardless of what
other repositories' entries hold. -/
theorem empty_content_treated_as_absent :
    (∀ (store : Store) (repo : GitLabRepository) (p c : Str),
        (p, c) ∈ get_repository_rules store repo → c ≠ [])
    ∧ (∀ (store : Store) (repo : GitLabRepository)
          (fetched : Except GitLabClientError (List (Str × Str))),
        (∀ kv ∈ store, globMatch (repoPattern repo) kv.1 = true → kv.2 = []) →
          (warm_cache_step store repo fetched).2 = true) := by
  constructor
  · intro store repo p c hmem
    obtain ⟨key, -, heq⟩ := List.mem_filterMap.mp hmem
    cases hk : RepositoryCacheKey.from_key key with
    | none => rw [hk] at heq; simp at heq
    | some rk =>
      rw [hk] at heq
      cases hg : storeGet store key with
      | none =>
        rw [hg] at heq
        have heq' : (none : Option (Str × Str)) = some (p, c) := heq
        exact absurd heq' (by simp)
      | some content =>
        rw [hg] at heq
        have heq' : (if content ≠ [] then some (rk.file_path, content) else none) =
            some (p, c) := heq
        by_cases hc : content = []
        · rw [if_neg (not_not_intro hc)] at heq'
          exact absurd heq' (by simp)
        · rw [if_pos hc] at heq'
          simp only [Option.some.injEq, Prod.mk.injEq] at heq'
          intro hcEmpty
          exact hc (heq'.2.trans hcEmpty)
  · intro store repo fetched hempty
    have hrules : get_repository_rules store repo = [] := by
      refine List.filterMap_eq_nil_iff.mpr (fun key hkey => ?_)
      obtain ⟨-, hglob⟩ := List.mem_filter.mp hkey
      cases hk : RepositoryCacheKey.from_key key with
      | none => rfl
      | some rk =>
        cases hg : storeGet store key with
        | none => rfl
        | some content =>
          have hc : content = [] :=
            hempty (key, content) (storeGet_mem store key content hg) hglob
          simp [hc]
    unfold warm_cache_step
    rw [if_neg (by simp [hrules])]
    cases fetched <;> rfl

/-- Claim C10 witness: a non-empty cached file appears in the rules with its
content, and a store in which the repository's only entry has empty
content while another repository holds non-empty content still makes the
warm-up fetch for the first repository. -/
theorem empty_content_treated_as_absent_witness :
    ((str "f", str "hello") ∈
        get_repository_rules [(str "r:main:f", str "hello")] ⟨str "r", str "main"⟩
      ∧ str "hello" ≠ [])
    ∧ ((∀ kv ∈ ([(str "r:main:f", ([] : Str)), (str "other:main:g", str "data")] : Store),
          globMatch (repoPattern ⟨str "r", str "main"⟩) kv.1 = true → kv.2 = ([] : Str))
      ∧ (warm_cache_step [(str "r:main:f", []), (str "other:main:g", str "data")]
          ⟨str "r", str "main"⟩ (.ok [])).2 = true) :=
  ⟨⟨by decide,
      empty_content_treated_as_absent.1 [(str "r:main:f", str "hello")]
        ⟨str "r", str "main"⟩ (str "f") (str "hello") (by decide)⟩,
    ⟨by decide,
      empty_content_treated_as_absent.2
        [(str "r:main:f", []), (str "other:main:g", str "data")]
        ⟨str "r", str "main"⟩ (.ok []) (by decide)⟩⟩

end Aimcp
